import Mathlib

/-!
Verification development for the council deliberation orchestrator
(Go sources: internal/agent/client.go, internal/agent/agent.go,
internal/council/council.go and vote.go).

The Go code is shallowly embedded:

* machine integers (`int`) become `Int` (agent counts, which are list
  lengths, become `Nat` and are cast where Go arithmetic mixes them);
* the Go map `map[int]int` used for `session.Scores` becomes an
  association list `ScoreMap` with Go map semantics for lookup, update
  and insertion (`m[k] += v` reads the existing value, zero when the key
  is absent, and stores the sum; a store on an absent key inserts it).
  Go map iteration order is unspecified; the model iterates in list
  order, and every result the code derives from an iteration is
  order-independent (a maximum, or a set that is sorted afterwards);
* fallible Go functions returning `(T, error)` become `Except`;
* external library calls (the HTTP transport, `encoding/json`'s
  `Unmarshal`) are not repository code and enter the model as explicit
  oracle parameters: a function from attempt number to outcome for the
  transport, a `decode` function for JSON decoding.
-/

namespace Council

/-- Decidable equality for `Except`, needed to evaluate concrete
outcomes in witnesses. -/
instance {ε α : Type} [DecidableEq ε] [DecidableEq α] :
    DecidableEq (Except ε α) := fun a b =>
  match a, b with
  | .error e, .error f =>
    if h : e = f then .isTrue (by rw [h]) else .isFalse (by simp [h])
  | .error _, .ok _ => .isFalse (by simp)
  | .ok _, .error _ => .isFalse (by simp)
  | .ok x, .ok y =>
    if h : x = y then .isTrue (by rw [h]) else .isFalse (by simp [h])

/-- Boolean success test on `Except` (Go's `err == nil`). -/
def isOkE {ε α : Type} : Except ε α → Bool
  | .ok _ => true
  | .error _ => false

/-- Vote record: Go struct `types.Vote` with fields `VoterID`,
`Rankings`, `Reasoning`. -/
structure Vote where
  voterID : Int
  rankings : List Int
  reasoning : String
deriving DecidableEq

/-- Scores map: Go `map[int]int`, modelled as an association list whose
keys are unique by construction (seeding inserts distinct keys, updates
never duplicate a key). -/
abbrev ScoreMap := List (Int × Int)

namespace ScoreMap

/-- Go map read `m[k]`: the stored value, or 0 when the key is absent. -/
def get (m : ScoreMap) (k : Int) : Int :=
  match m.find? (fun p => p.1 == k) with
  | some p => p.2
  | none => 0

/-- Keys of the map, in model iteration order. -/
def keys (m : ScoreMap) : List Int := m.map (fun p => p.1)

/-- Go `m[k] += v`: update the entry for `k` when present, otherwise
insert `(k, v)` (the read of an absent key yields 0). -/
def addTo (m : ScoreMap) (k : Int) (v : Int) : ScoreMap :=
  match m with
  | [] => [(k, v)]
  | p :: rest => if p.1 == k then (p.1, p.2 + v) :: rest else p :: addTo rest k v

/-- Sum of all stored values. -/
def sumValues (m : ScoreMap) : Int := (m.map (fun p => p.2)).sum

end ScoreMap

/-- Body of the inner tally loop, from `Council.Tally` in vote.go:
`for i, agentID := range vote.Rankings { points := n - 1 - i;
if points > 0 { c.session.Scores[agentID] += points } }`.
The parameter `i` is the running 0-based position. -/
def scoreRankings (n : Nat) : Nat → ScoreMap → List Int → ScoreMap
  | _, m, [] => m
  | i, m, a :: rest =>
    scoreRankings n (i + 1)
      (if (0 : Int) < (n : Int) - 1 - (i : Int)
        then ScoreMap.addTo m a ((n : Int) - 1 - (i : Int)) else m) rest

/-- Seeding loop of `Council.Tally`: every agent ID `1..n` is entered
into Scores at 0 (agent IDs are `i+1` for `i < n`, from `Council.New`). -/
def seedScores (n : Nat) : ScoreMap :=
  (List.range n).map (fun (j : Nat) => ((j : Int) + 1, (0 : Int)))

/-- Scores after `Council.Tally` has folded every collected vote over
the seeded map. -/
def tallyScores (n : Nat) (votes : List Vote) : ScoreMap :=
  votes.foldl (fun m v => scoreRankings n 0 m v.rankings) (seedScores n)

/-- Maximum-score loop of `Council.Tally`: `maxScore := 0; for _, score
:= range Scores { if score > maxScore { maxScore = score } }`. -/
def tallyMaxScore (m : ScoreMap) : Int :=
  m.foldl (fun mx p => if p.2 > mx then p.2 else mx) 0

/-- Outcome fields set by `Council.Tally` on the session. -/
structure TallyResult where
  scores : ScoreMap
  winnerID : Option Int
  isTie : Bool
  tiedAgents : List Int
deriving DecidableEq

/-- Winner-collection loop of `Council.Tally`: every agent ID whose
score equals `maxScore` (Go map iteration, order immaterial), then
`sort.Ints(winners)` sorts ascending; any correct comparison sort
yields this list, insertion sort is used here. -/
def tallyWinners (n : Nat) (votes : List Vote) : List Int :=
  List.insertionSort (fun a b => a ≤ b)
    (((tallyScores n votes).filter
        (fun p => p.2 == tallyMaxScore (tallyScores n votes))).map
      (fun p => p.1))

/-- The `Council.Tally` function: seed scores, fold votes, find the
maximal score, collect every agent attaining it, sort ascending, then
set winner/tie fields (`len(winners) == 1` gives a sole winner,
otherwise `WinnerID = nil`, `IsTie = true`, `TiedAgents = winners`). -/
def Tally (n : Nat) (votes : List Vote) : TallyResult :=
  match tallyWinners n votes with
  | [w] => ⟨tallyScores n votes, some w, false, []⟩
  | ws => ⟨tallyScores n votes, none, true, ws⟩

/-- Claim-side formula for the points position `i` contributes: `N-1-i`
points, with any position at or past `N-1` contributing 0. -/
def specPosPoints (n : Nat) (i : Nat) : Int :=
  if (i : Int) < (n : Int) - 1 then (n : Int) - 1 - (i : Int) else 0

/-- Claim-side points agent `a` gains from one ranking list, position
counted from `i`. -/
def specRankPoints (n : Nat) (a : Int) : Nat → List Int → Int
  | _, [] => 0
  | i, b :: rest =>
    (if b = a then specPosPoints n i else 0) + specRankPoints n a (i + 1) rest

/-- Claim-side total points of agent `a` over all votes. -/
def specAgentPoints (n : Nat) (votes : List Vote) (a : Int) : Int :=
  (votes.map (fun v => specRankPoints n a 0 v.rankings)).sum

/-- Points one ranking list actually injects into the tally (the code
awards `max (n-1-i) 0` at position `i`): the amended conservation
right-hand side. -/
def specAwardedPoints (n : Nat) : Nat → List Int → Int
  | _, [] => 0
  | i, _ :: rest => specPosPoints n i + specAwardedPoints n (i + 1) rest

/-- The original claim's conservation right-hand side for one ranking
list: the raw sum `Σ over positions i of (n - 1 - i)`, with no clamping
of positions at or past `n - 1`. -/
def specRawRankSum (n : Nat) : Nat → List Int → Int
  | _, [] => 0
  | i, _ :: rest => ((n : Int) - 1 - (i : Int)) + specRawRankSum n (i + 1) rest

/-- Claim-side notion for C2: agent `a` attains the maximum score of
the map (it is present and no key scores strictly more). -/
def attainsMax (m : ScoreMap) (a : Int) : Prop :=
  a ∈ ScoreMap.keys m ∧ ∀ b ∈ ScoreMap.keys m, ScoreMap.get m b ≤ ScoreMap.get m a

instance (m : ScoreMap) (a : Int) : Decidable (attainsMax m a) := by
  unfold attainsMax
  infer_instance

/-- Decoded shape of a vote response: Go struct `voteResponse` with
fields `Rankings []int` and `Reasoning string`. -/
structure VoteResp where
  rankings : List Int
  reasoning : String
deriving DecidableEq

/-- Errors `Agent.Vote` can produce, one constructor per distinct
`fmt.Errorf` site (plus `gateway` for a propagated `SendMessage`
failure wrapped by "failed to generate vote"). -/
inductive VoteErr where
  | gateway (msg : String)
  | noJSON
  | decodeFailed
  | selfVote (id : Int)
  | invalidID (x : Int)
deriving DecidableEq

/-- Backtick character (code 96), written by code to keep the source
free of backtick literals. -/
def backtick : Char := Char.ofNat 96

/-- Opening-brace character (code 123). -/
def lbrace : Char := Char.ofNat 123

/-- Closing-brace character (code 125). -/
def rbrace : Char := Char.ofNat 125

/-- Newline character (code 10). -/
def newlineChar : Char := Char.ofNat 10

/-- Go regexp `\s`: space, tab, newline, form feed, carriage return. -/
def isWS (c : Char) : Bool :=
  c == Char.ofNat 32 || c == Char.ofNat 9 || c == Char.ofNat 10 ||
    c == Char.ofNat 12 || c == Char.ofNat 13

/-- Triple-backtick fence delimiter. -/
def bq3 : List Char := [backtick, backtick, backtick]

/-- The optional `json` tag after the opening fence. -/
def jsonTag : List Char := "json".toList

/-- Index of the first occurrence of `pat` as a contiguous substring
(Go `strings.Index` / the regexp engine's leftmost search). -/
def findSub (pat : List Char) : List Char → Option Nat
  | [] => if pat.isEmpty then some 0 else none
  | c :: rest =>
    if pat.isPrefixOf (c :: rest) then some 0
    else (findSub pat rest).map (fun k => k + 1)

/-- Tail of the Go regexp match after the opening fence and optional
tag have been consumed. The pattern tail is, in order: a greedy
whitespace run, an optional newline, a lazy any-character group (the
captured inner text), an optional newline, and the closing fence. For
this fixed pattern leftmost-first semantics collapse to: the greedy
whitespace run is maximal (shrinking it cannot create a closing fence,
since a backtick is not whitespace), the first optional newline is then
forced empty, the lazy group ends at the earliest following fence, and
the final optional newline greedily absorbs one newline immediately
before that fence. -/
def fenceInnerFrom (r : List Char) : Option (List Char) :=
  let r1 := r.dropWhile isWS
  match findSub bq3 r1 with
  | none => none
  | some p =>
    let inner := r1.take p
    some (if inner.getLast? == some newlineChar then inner.dropLast else inner)

/-- Leftmost-first scan of `regexp.FindStringSubmatch` for the code
block pattern: the match starts at the earliest opening fence from
which a closing fence is reachable; a failed start is retried from the
next character. -/
def codeBlockScan : List Char → Option (List Char)
  | [] => none
  | c :: rest =>
    if bq3.isPrefixOf (c :: rest) then
      let r := rest.drop 2
      let r2 := if jsonTag.isPrefixOf r then r.drop 4 else r
      match fenceInnerFrom r2 with
      | some inner => some inner
      | none => codeBlockScan rest
    else codeBlockScan rest

/-- Go `strings.Index` for a single character. -/
def strIndexOf (c : Char) : List Char → Option Nat
  | [] => none
  | d :: rest => if d == c then some 0 else (strIndexOf c rest).map (fun k => k + 1)

/-- Go `strings.LastIndex` for a single character. -/
def strLastIndexOf (c : Char) (s : List Char) : Option Nat :=
  match strIndexOf c s.reverse with
  | none => none
  | some i => some (s.length - 1 - i)

/-- The `extractJSON` helper of agent.go: take the inner text of a
fenced code block when one matches, then slice from the first opening
brace to the last closing brace; the empty string signals failure
(`start == -1 || end == -1 || end <= start`). -/
def extractJSON (s : List Char) : List Char :=
  let t :=
    match codeBlockScan s with
    | some inner => inner
    | none => s
  match strIndexOf lbrace t, strLastIndexOf rbrace t with
  | some a, some b => if b ≤ a then [] else (t.drop a).take (b + 1 - a)
  | _, _ => []

/-- A clean payload for C8: a brace-delimited, backtick-free character
list with a non-whitespace head — exactly the shape of a successfully
extracted JSON object span. -/
def cleanPayload (t : List Char) : Prop :=
  (∃ mid : List Char, t = lbrace :: mid ++ [rbrace]) ∧ backtick ∉ t

/-- Validation loops of `Agent.parseVote`: first scan every ranking for
a self-vote, then scan every ranking for an out-of-range agent ID, then
build the Vote. -/
def validateVote (id total : Int) (r : VoteResp) : Except VoteErr Vote :=
  match r.rankings.find? (fun x => x == id) with
  | some _ => .error (.selfVote id)
  | none =>
    match r.rankings.find? (fun x => decide (x < 1) || decide (total < x)) with
    | some x => .error (.invalidID x)
    | none => .ok ⟨id, r.rankings, r.reasoning⟩

/-- The `Agent.parseVote` chain: extract the JSON-like span, decode it
(`json.Unmarshal`, an external library call, enters as the `decode`
oracle), then validate. An empty extraction is the "no JSON found in
response" error. -/
def parseVote (id total : Int) (decode : List Char → Option VoteResp)
    (response : List Char) : Except VoteErr Vote :=
  let jsonStr := extractJSON response
  if jsonStr.isEmpty then .error .noJSON
  else
    match decode jsonStr with
    | none => .error .decodeFailed
    | some r => validateVote id total r

/-- One call of `Agent.Vote`: the gateway either fails (its error is
propagated) or yields a response text that is parsed and validated.
The oracle `gw` is that call's resolved transport outcome. -/
def agentVoteAttempt (id total : Int) (decode : List Char → Option VoteResp)
    (gw : Except String (List Char)) : Except VoteErr Vote :=
  match gw with
  | .error e => .error (.gateway e)
  | .ok resp => parseVote id total decode resp

/-- Per-agent body of `Council.Vote`: on failure the agent is re-asked
once with an identical request (`a.Vote` with the same arguments); if
the retry also fails the recorded vote is the fixed fallback
`{VoterID: a.ID, Rankings: []int{}, Reasoning: "Vote failed to parse"}`. -/
def agentFinalVote (id total : Int) (decode : List Char → Option VoteResp)
    (gw1 gw2 : Except String (List Char)) : Vote :=
  match agentVoteAttempt id total decode gw1 with
  | .ok v => v
  | .error _ =>
    match agentVoteAttempt id total decode gw2 with
    | .ok v => v
    | .error _ => ⟨id, [], "Vote failed to parse"⟩

/-- The `Council.Vote` phase over agents `1..n`: every agent's final
vote is appended (fan-out joined by the wait group; append order is
immaterial because of the final sort by voter ID), the collected list
is sorted by voter ID, and the function returns `nil` unconditionally
(vote failures are logged, never returned). `gw1` and `gw2` give each
agent's first and retry transport outcomes. -/
def votePhase (n : Nat) (decode : List Char → Option VoteResp)
    (gw1 gw2 : Int → Except String (List Char)) : Except String (List Vote) :=
  .ok (List.insertionSort (fun u v => u.voterID ≤ v.voterID)
    ((List.range n).map (fun (j : Nat) =>
      agentFinalVote ((j : Int) + 1) (n : Int) decode
        (gw1 ((j : Int) + 1)) (gw2 ((j : Int) + 1)))))

/-- One content segment of the backend response (`messageResponse`'s
anonymous content struct, fields `Type` and `Text`; `Type` is renamed
`segType` because `type` is reserved in Lean). -/
structure ContentSegment where
  segType : String
  text : String
deriving DecidableEq

/-- The backend's `messageResponse` (client.go). -/
structure MessageResponse where
  id : String
  msgType : String
  role : String
  content : List ContentSegment
  stopReason : String
  inputTokens : Int
  outputTokens : Int
deriving DecidableEq

/-- Errors of the client: `APIError` carries the HTTP status code
(plus error type and message); `wrapped` stands for any
`fmt.Errorf`-produced transport error; `maxRetriesExceeded` is the
final `fmt.Errorf("max retries exceeded: %w", lastErr)`. -/
inductive GoError where
  | apiError (statusCode : Int) (errType : String) (message : String)
  | wrapped (msg : String)
  | maxRetriesExceeded (cause : GoError)
deriving DecidableEq

/-- The `isRateLimitError` helper: true exactly for an `APIError` with
status 429; any other error shape is not a rate limit. -/
def isRateLimitError : GoError → Bool
  | .apiError status _ _ => status == 429
  | _ => false

/-- The `Client.extractText` helper: the text of the first
content segment whose type is "text", or the empty string. -/
def extractText (resp : MessageResponse) : String :=
  match resp.content.find? (fun c => c.segType == "text") with
  | some c => c.text
  | none => ""

/-- Retry ceiling constant of client.go. -/
def maxRetries : Nat := 3

/-- The retry loop of `Client.SendMessage` from iteration `attempt`
on; `left = maxRetries - attempt` is the number of retries still
allowed, so `left > 0` is exactly Go's `attempt < maxRetries` guard.
`doRequest` is the resolved outcome of each `c.doRequest` call (the
HTTP transport is external). Outcomes: success returns the extracted
text; a rate-limit failure with retries left waits
`baseRetryDelay * (1 << attempt)` and loops; a rate-limit failure with
no retries left falls out of the loop into the "max retries exceeded"
wrap of the last error; any other failure returns immediately. Besides
the result, the list of backoff delays actually waited, in units of
`baseRetryDelay`, is returned; the cancellation select around the wait
is outside this model and outside the claims proved here. -/
def sendMessageFrom (doRequest : Nat → Except GoError MessageResponse)
    (attempt : Nat) (left : Nat) : Except GoError String × List Nat :=
  match doRequest attempt with
  | .ok resp => (.ok (extractText resp), [])
  | .error e =>
    if isRateLimitError e then
      match left with
      | 0 => (.error (.maxRetriesExceeded e), [])
      | left' + 1 =>
        let rest := sendMessageFrom doRequest (attempt + 1) left'
        (rest.1, 2 ^ attempt :: rest.2)
    else (.error e, [])

/-- The `Client.SendMessage` entry point: the loop starts at attempt
0 with `maxRetries` retries allowed. -/
def SendMessage (doRequest : Nat → Except GoError MessageResponse) :
    Except GoError String × List Nat :=
  sendMessageFrom doRequest 0 maxRetries

namespace ScoreMap

theorem get_nil (j : Int) : get ([] : ScoreMap) j = 0 := rfl

theorem get_cons (p : Int × Int) (rest : ScoreMap) (j : Int) :
    get (p :: rest) j = if p.1 = j then p.2 else get rest j := by
  simp only [get, List.find?]
  by_cases h : p.1 = j
  · simp [beq_iff_eq, h]
  · have hb : (p.1 == j) = false := by simp [beq_iff_eq, h]
    simp [hb, h]

theorem get_addTo (m : ScoreMap) (k v j : Int) :
    get (addTo m k v) j = if j = k then get m j + v else get m j := by
  induction m with
  | nil =>
    by_cases h : j = k
    · simp [addTo, get_cons, get_nil, h]
    · simp [addTo, get_cons, get_nil, h, Ne.symm h]
  | cons p rest ih =>
    by_cases hpk : p.1 = k
    · subst hpk
      by_cases hj : j = p.1
      · simp [addTo, get_cons, hj]
      · simp [addTo, get_cons, hj, Ne.symm hj]
    · simp only [addTo, beq_iff_eq, hpk, if_false]
      by_cases hpj : p.1 = j
      · have hj : ¬ j = k := fun hh => hpk (hpj.trans hh)
        simp [get_cons, hpj, hj]
      · simp [get_cons, hpj, ih]

theorem keys_addTo_of_mem (m : ScoreMap) (k v : Int) (h : k ∈ keys m) :
    keys (addTo m k v) = keys m := by
  induction m with
  | nil => simp [keys] at h
  | cons p rest ih =>
    by_cases hpk : p.1 = k
    · simp [addTo, hpk, keys]
    · have hk : k ∈ keys rest := by
        simp only [keys, List.map_cons, List.mem_cons] at h
        rcases h with h | h
        · exact absurd h.symm hpk
        · exact h
      have ih2 := ih hk
      simp only [addTo, beq_iff_eq, hpk, if_false, keys, List.map_cons]
      simp only [keys] at ih2
      rw [ih2]

theorem keys_addTo_of_not_mem (m : ScoreMap) (k v : Int) (h : k ∉ keys m) :
    keys (addTo m k v) = keys m ++ [k] := by
  induction m with
  | nil => simp [addTo, keys]
  | cons p rest ih =>
    have hpk : ¬ p.1 = k := by
      intro he
      exact h (by simp [keys, he])
    have hk : k ∉ keys rest := by
      intro hmem
      exact h (by simp only [keys, List.map_cons, List.mem_cons]; exact Or.inr hmem)
    have ih2 := ih hk
    simp only [addTo, beq_iff_eq, hpk, if_false, keys, List.map_cons]
    simp only [keys] at ih2
    rw [ih2]
    simp

theorem sumValues_addTo (m : ScoreMap) (k v : Int) :
    sumValues (addTo m k v) = sumValues m + v := by
  induction m with
  | nil => simp [addTo, sumValues]
  | cons p rest ih =>
    by_cases hpk : p.1 = k
    · simp [addTo, hpk, sumValues]
      ring
    · simp [addTo, beq_iff_eq, hpk, sumValues] at ih ⊢
      omega

theorem get_eq_zero_of_all_zero (m : ScoreMap) (a : Int)
    (h : ∀ p ∈ m, p.2 = 0) : get m a = 0 := by
  induction m with
  | nil => rfl
  | cons p rest ih =>
    rw [get_cons]
    by_cases hpa : p.1 = a
    · simpa [hpa] using h p (by simp)
    · simp only [hpa, if_false]
      exact ih (fun q hq => h q (by simp [hq]))

theorem mem_keys_addTo (m : ScoreMap) (k v j : Int) (h : j ∈ keys m) :
    j ∈ keys (addTo m k v) := by
  by_cases hk : k ∈ keys m
  · rw [keys_addTo_of_mem m k v hk]; exact h
  · rw [keys_addTo_of_not_mem m k v hk]; simp [h]

end ScoreMap

theorem get_seedScores (n : Nat) (a : Int) :
    ScoreMap.get (seedScores n) a = 0 := by
  apply ScoreMap.get_eq_zero_of_all_zero
  intro p hp
  simp only [seedScores, List.mem_map] at hp
  obtain ⟨j, _, hj⟩ := hp
  rw [← hj]

theorem mem_keys_seedScores (n : Nat) (a : Int) :
    a ∈ ScoreMap.keys (seedScores n) ↔ 1 ≤ a ∧ a ≤ (n : Int) := by
  have hk : ScoreMap.keys (seedScores n)
      = (List.range n).map (fun (j : Nat) => (j : Int) + 1) := by
    simp [ScoreMap.keys, seedScores]
  rw [hk]
  simp only [List.mem_map, List.mem_range]
  constructor
  · rintro ⟨j, hj, rfl⟩
    omega
  · rintro ⟨h1, h2⟩
    exact ⟨(a - 1).toNat, by omega, by omega⟩

theorem get_scoreRankings (n : Nat) (a : Int) (rs : List Int) :
    ∀ (i : Nat) (m : ScoreMap),
      ScoreMap.get (scoreRankings n i m rs) a
        = ScoreMap.get m a + specRankPoints n a i rs := by
  induction rs with
  | nil => intro i m; simp [scoreRankings, specRankPoints]
  | cons b rest ih =>
    intro i m
    rw [scoreRankings, ih]
    have hstep :
        ScoreMap.get
            (if (0 : Int) < (n : Int) - 1 - (i : Int)
              then ScoreMap.addTo m b ((n : Int) - 1 - (i : Int)) else m) a
          = ScoreMap.get m a + (if b = a then specPosPoints n i else 0) := by
      by_cases hc : (0 : Int) < (n : Int) - 1 - (i : Int)
      · rw [if_pos hc, ScoreMap.get_addTo]
        by_cases hab : a = b
        · simp only [hab, if_true, beq_self_eq_true, specPosPoints]
          rw [if_pos (by omega)]
        · rw [if_neg hab, if_neg (fun h => hab (Eq.symm h))]
          omega
      · rw [if_neg hc]
        have : (if b = a then specPosPoints n i else 0) = 0 := by
          by_cases hab : b = a
          · simp only [hab, if_true, specPosPoints]
            rw [if_neg (by omega)]
          · rw [if_neg hab]
        omega
    rw [hstep, specRankPoints]
    ring

theorem get_tallyScores_foldl (n : Nat) (a : Int) (votes : List Vote) :
    ∀ m : ScoreMap,
      ScoreMap.get (votes.foldl (fun m v => scoreRankings n 0 m v.rankings) m) a
        = ScoreMap.get m a
            + (votes.map (fun v => specRankPoints n a 0 v.rankings)).sum := by
  induction votes with
  | nil => intro m; simp
  | cons v rest ih =>
    intro m
    simp only [List.foldl_cons, List.map_cons, List.sum_cons]
    rw [ih, get_scoreRankings]
    ring

theorem mem_keys_scoreRankings (n : Nat) (j : Int) (rs : List Int) :
    ∀ (i : Nat) (m : ScoreMap), j ∈ ScoreMap.keys m →
      j ∈ ScoreMap.keys (scoreRankings n i m rs) := by
  induction rs with
  | nil => intro i m h; simpa [scoreRankings] using h
  | cons b rest ih =>
    intro i m h
    rw [scoreRankings]
    apply ih
    by_cases hc : (0 : Int) < (n : Int) - 1 - (i : Int)
    · rw [if_pos hc]; exact ScoreMap.mem_keys_addTo m b _ j h
    · rw [if_neg hc]; exact h

theorem mem_keys_tallyScores (n : Nat) (j : Int) (votes : List Vote)
    (h : j ∈ ScoreMap.keys (seedScores n)) :
    j ∈ ScoreMap.keys (tallyScores n votes) := by
  unfold tallyScores
  generalize seedScores n = m at h
  induction votes generalizing m with
  | nil => simpa using h
  | cons v rest ih =>
    simp only [List.foldl_cons]
    exact ih _ (mem_keys_scoreRankings n j v.rankings 0 m h)

/-- C1: for a deliberation with `n` agents, Tally seeds every agent ID
in `[1, n]` into Scores at 0, and each vote's ranking at 0-indexed
position `i` adds `n - 1 - i` points to the ranked agent's running
score, a position at or past `n - 1` contributing 0 without being an
error: consequently every seeded agent's final score equals the
claim-side sum `specAgentPoints`, and every agent ID in `[1, n]` is
present in the final Scores map. -/
theorem tally_points_correct (n : Nat) (votes : List Vote) (a : Int)
    (h1 : 1 ≤ a) (h2 : a ≤ (n : Int)) :
    ScoreMap.get (tallyScores n votes) a = specAgentPoints n votes a ∧
      a ∈ ScoreMap.keys (tallyScores n votes) := by
  constructor
  · rw [tallyScores, get_tallyScores_foldl, get_seedScores, specAgentPoints]
    ring
  · exact mem_keys_tallyScores n a votes ((mem_keys_seedScores n a).mpr ⟨h1, h2⟩)

/-- Witness for C1 at the spec's own scenario (3 agents, votes
`1→[2,3]`, `2→[3,1]`, `3→[1,2]`), agent 1. -/
theorem tally_points_correct_witness :
    ScoreMap.get
        (tallyScores 3
          [⟨1, [2, 3], "a"⟩, ⟨2, [3, 1], "b"⟩, ⟨3, [1, 2], "c"⟩]) 1
      = specAgentPoints 3
          [⟨1, [2, 3], "a"⟩, ⟨2, [3, 1], "b"⟩, ⟨3, [1, 2], "c"⟩] 1 ∧
      (1 : Int) ∈ ScoreMap.keys
        (tallyScores 3
          [⟨1, [2, 3], "a"⟩, ⟨2, [3, 1], "b"⟩, ⟨3, [1, 2], "c"⟩]) :=
  tally_points_correct 3
    [⟨1, [2, 3], "a"⟩, ⟨2, [3, 1], "b"⟩, ⟨3, [1, 2], "c"⟩] 1
    (by decide) (by decide)

theorem seedScores_values_zero (n : Nat) : ∀ p ∈ seedScores n, p.2 = 0 := by
  intro p hp
  simp only [seedScores, List.mem_map] at hp
  obtain ⟨j, _, hj⟩ := hp
  rw [← hj]

theorem seedScores_length (n : Nat) : (seedScores n).length = n := by
  simp [seedScores]

theorem addTo_values_nonneg (m : ScoreMap) (k v : Int)
    (hm : ∀ p ∈ m, 0 ≤ p.2) (hv : 0 ≤ v) :
    ∀ p ∈ ScoreMap.addTo m k v, 0 ≤ p.2 := by
  induction m with
  | nil =>
    intro p hp
    simp only [ScoreMap.addTo, List.mem_singleton] at hp
    rw [hp]
    exact hv
  | cons q rest ih =>
    intro p hp
    by_cases hqk : q.1 = k
    · simp only [ScoreMap.addTo, hqk, beq_self_eq_true, if_true,
        List.mem_cons] at hp
      rcases hp with hp | hp
      · rw [hp]
        have := hm q (by simp)
        simp only []
        omega
      · exact hm p (by simp [hp])
    · simp only [ScoreMap.addTo, beq_iff_eq, hqk, if_false,
        List.mem_cons] at hp
      rcases hp with hp | hp
      · rw [hp]; exact hm q (by simp)
      · exact ih (fun r hr => hm r (by simp [hr])) p hp

theorem scoreRankings_values_nonneg (n : Nat) (rs : List Int) :
    ∀ (i : Nat) (m : ScoreMap), (∀ p ∈ m, 0 ≤ p.2) →
      ∀ p ∈ scoreRankings n i m rs, 0 ≤ p.2 := by
  induction rs with
  | nil =>
    intro i m hm p hp
    simp only [scoreRankings] at hp
    exact hm p hp
  | cons b rest ih =>
    intro i m hm p hp
    rw [scoreRankings] at hp
    by_cases hc : (0 : Int) < (n : Int) - 1 - (i : Int)
    · rw [if_pos hc] at hp
      exact ih (i + 1) _ (addTo_values_nonneg m b _ hm (le_of_lt hc)) p hp
    · rw [if_neg hc] at hp
      exact ih (i + 1) m hm p hp

theorem tallyScores_values_nonneg (n : Nat) (votes : List Vote) :
    ∀ p ∈ tallyScores n votes, 0 ≤ p.2 := by
  unfold tallyScores
  have H : ∀ m : ScoreMap, (∀ p ∈ m, 0 ≤ p.2) →
      ∀ p ∈ votes.foldl (fun m v => scoreRankings n 0 m v.rankings) m, 0 ≤ p.2 := by
    induction votes with
    | nil => intro m hm; simpa using hm
    | cons v rest ih =>
      intro m hm
      simp only [List.foldl_cons]
      exact ih _ (scoreRankings_values_nonneg n v.rankings 0 m hm)
  exact H (seedScores n)
    (fun p hp => le_of_eq (seedScores_values_zero n p hp).symm)

theorem keys_scoreRankings_of_subset (n : Nat) (rs : List Int) :
    ∀ (i : Nat) (m : ScoreMap), (∀ x ∈ rs, x ∈ ScoreMap.keys m) →
      ScoreMap.keys (scoreRankings n i m rs) = ScoreMap.keys m := by
  induction rs with
  | nil => intro i m _; simp [scoreRankings]
  | cons b rest ih =>
    intro i m hsub
    rw [scoreRankings]
    have hb : b ∈ ScoreMap.keys m := hsub b (by simp)
    by_cases hc : (0 : Int) < (n : Int) - 1 - (i : Int)
    · rw [if_pos hc]
      have hkeys := ScoreMap.keys_addTo_of_mem m b ((n : Int) - 1 - (i : Int)) hb
      rw [ih (i + 1) _ (fun x hx => hkeys ▸ hsub x (by simp [hx])), hkeys]
    · rw [if_neg hc]
      exact ih (i + 1) m (fun x hx => hsub x (by simp [hx]))

theorem keys_tallyScores_of_valid (n : Nat) (votes : List Vote)
    (hv : ∀ v ∈ votes, ∀ x ∈ v.rankings, 1 ≤ x ∧ x ≤ (n : Int)) :
    ScoreMap.keys (tallyScores n votes) = ScoreMap.keys (seedScores n) := by
  unfold tallyScores
  have H : ∀ (vs : List Vote) (m : ScoreMap),
      (∀ v ∈ vs, v ∈ votes) →
      ScoreMap.keys m = ScoreMap.keys (seedScores n) →
      ScoreMap.keys (vs.foldl (fun m v => scoreRankings n 0 m v.rankings) m)
        = ScoreMap.keys (seedScores n) := by
    intro vs
    induction vs with
    | nil => intro m _ hm; simpa using hm
    | cons v rest ih =>
      intro m hvs hm
      simp only [List.foldl_cons]
      have hsub : ∀ x ∈ v.rankings, x ∈ ScoreMap.keys m := by
        intro x hx
        rw [hm, mem_keys_seedScores]
        exact hv v (hvs v (by simp)) x hx
      refine ih _ (fun w hw => hvs w (by simp [hw])) ?_
      rw [keys_scoreRankings_of_subset n v.rankings 0 m hsub, hm]
  exact H votes (seedScores n) (fun v hvmem => hvmem) rfl

/-- C6 (amended): for every `n ≥ 3` and any list of votes all of whose
ranking entries lie in `[1, n]` — the invariant every vote the Vote
phase records satisfies — the Scores map after Tally has exactly `n`
entries, its keys are exactly the agent IDs `[1, n]`, and every value
is non-negative. (The unamended "regardless of the contents of the
collected votes" fails: an out-of-range ranking entry inserts a fresh
key, see the counterexample.) -/
theorem tally_scores_shape (n : Nat) (votes : List Vote) (hn : 3 ≤ n)
    (hv : ∀ v ∈ votes, ∀ x ∈ v.rankings, 1 ≤ x ∧ x ≤ (n : Int)) :
    (tallyScores n votes).length = n ∧
      (∀ a : Int,
        a ∈ ScoreMap.keys (tallyScores n votes) ↔ 1 ≤ a ∧ a ≤ (n : Int)) ∧
      ∀ p ∈ tallyScores n votes, 0 ≤ p.2 := by
  have hkeys := keys_tallyScores_of_valid n votes hv
  refine ⟨?_, ?_, tallyScores_values_nonneg n votes⟩
  · have h1 : (tallyScores n votes).length
        = (ScoreMap.keys (tallyScores n votes)).length := by
      simp [ScoreMap.keys]
    have h2 : (seedScores n).length = (ScoreMap.keys (seedScores n)).length := by
      simp [ScoreMap.keys]
    rw [h1, hkeys, ← h2, seedScores_length]
  · intro a
    rw [hkeys]
    exact mem_keys_seedScores n a

/-- C6 counterexample: with 3 agents and a single collected vote whose
ranking names agent 99 first, Tally inserts key 99, so Scores has 4
entries and a key outside `[1, 3]`: the claim's "regardless of the
contents of the collected votes" is false as stated. -/
theorem tally_scores_shape_counterexample :
    (tallyScores 3 [⟨1, [99], "x"⟩]).length = 4 ∧
      (99 : Int) ∈ ScoreMap.keys (tallyScores 3 [⟨1, [99], "x"⟩]) := by
  decide

/-- Witness for C6 at `n = 3` with one in-range vote. -/
theorem tally_scores_shape_witness :
    (tallyScores 3 [⟨1, [2, 3], "a"⟩]).length = 3 ∧
      (∀ a : Int,
        a ∈ ScoreMap.keys (tallyScores 3 [⟨1, [2, 3], "a"⟩])
          ↔ 1 ≤ a ∧ a ≤ ((3 : Nat) : Int)) ∧
      ∀ p ∈ tallyScores 3 [⟨1, [2, 3], "a"⟩], 0 ≤ p.2 :=
  tally_scores_shape 3 [⟨1, [2, 3], "a"⟩] (by decide) (by decide)

theorem sumValues_scoreRankings (n : Nat) (rs : List Int) :
    ∀ (i : Nat) (m : ScoreMap),
      ScoreMap.sumValues (scoreRankings n i m rs)
        = ScoreMap.sumValues m + specAwardedPoints n i rs := by
  induction rs with
  | nil => intro i m; simp [scoreRankings, specAwardedPoints]
  | cons b rest ih =>
    intro i m
    rw [scoreRankings, ih, specAwardedPoints]
    by_cases hc : (0 : Int) < (n : Int) - 1 - (i : Int)
    · rw [if_pos hc, ScoreMap.sumValues_addTo]
      have : specPosPoints n i = (n : Int) - 1 - (i : Int) := by
        rw [specPosPoints, if_pos (by omega)]
      omega
    · rw [if_neg hc]
      have : specPosPoints n i = 0 := by
        rw [specPosPoints, if_neg (by omega)]
      omega

theorem sumValues_seedScores (n : Nat) : ScoreMap.sumValues (seedScores n) = 0 := by
  have H : ∀ m : ScoreMap, (∀ p ∈ m, p.2 = 0) → ScoreMap.sumValues m = 0 := by
    intro m
    induction m with
    | nil => intro _; rfl
    | cons q rest ih =>
      intro hm
      simp only [ScoreMap.sumValues, List.map_cons, List.sum_cons] at ih ⊢
      rw [hm q (by simp), ih (fun p hp => hm p (by simp [hp]))]
      ring
  exact H (seedScores n) (seedScores_values_zero n)

/-- C7 (amended): the sum over all agents of their tallied scores
equals the sum over votes of the points the tally loop actually awards,
`Σ over positions i of max (N-1-i) 0` — the clamp matters because the
code skips non-positive point values while the original claim's raw sum
`Σ_{i < len} (N-1-i)` goes negative past position `N-1`; the tally is a
pure fold with no double counting. This holds for every list of votes,
in particular every list the Vote phase can record. -/
theorem tally_conservation (n : Nat) (votes : List Vote) :
    ScoreMap.sumValues (tallyScores n votes)
      = (votes.map (fun v => specAwardedPoints n 0 v.rankings)).sum := by
  unfold tallyScores
  have H : ∀ (vs : List Vote) (m : ScoreMap),
      ScoreMap.sumValues (vs.foldl (fun m v => scoreRankings n 0 m v.rankings) m)
        = ScoreMap.sumValues m
            + (vs.map (fun v => specAwardedPoints n 0 v.rankings)).sum := by
    intro vs
    induction vs with
    | nil => intro m; simp
    | cons v rest ih =>
      intro m
      simp only [List.foldl_cons, List.map_cons, List.sum_cons]
      rw [ih, sumValues_scoreRankings]
      ring
  rw [H votes (seedScores n), sumValues_seedScores]
  ring

/-- C7 counterexample: with 3 agents, the Vote phase records the vote
`1 → [2, 3, 2, 3]` (validation does not reject duplicate rankings), the
tallied total is 3, but the claim's raw sum `Σ_{i<4} (2 - i)` is 2
because position 3 contributes `-1`: conservation with the unclamped
right-hand side is false for votes the Vote phase can record. -/
theorem tally_conservation_counterexample :
    votePhase 3 (fun _ => some ⟨[2, 3, 2, 3], "x"⟩)
        (fun i => if i = 1 then .ok [lbrace, Char.ofNat 114, rbrace]
          else .error "down")
        (fun _ => .error "down")
      = .ok [⟨1, [2, 3, 2, 3], "x"⟩, ⟨2, [], "Vote failed to parse"⟩,
          ⟨3, [], "Vote failed to parse"⟩] ∧
      ScoreMap.sumValues
          (tallyScores 3
            ([⟨1, [2, 3, 2, 3], "x"⟩, ⟨2, [], "Vote failed to parse"⟩,
              ⟨3, [], "Vote failed to parse"⟩] : List Vote)) = 3 ∧
      (([⟨1, [2, 3, 2, 3], "x"⟩, ⟨2, [], "Vote failed to parse"⟩,
          ⟨3, [], "Vote failed to parse"⟩] : List Vote).map
        (fun v => specRawRankSum 3 0 v.rankings)).sum = 2 := by
  decide

theorem nodup_keys_addTo (m : ScoreMap) (k v : Int)
    (h : (ScoreMap.keys m).Nodup) : (ScoreMap.keys (ScoreMap.addTo m k v)).Nodup := by
  by_cases hk : k ∈ ScoreMap.keys m
  · rw [ScoreMap.keys_addTo_of_mem m k v hk]; exact h
  · rw [ScoreMap.keys_addTo_of_not_mem m k v hk]
    refine List.Nodup.append h (List.nodup_singleton k) ?_
    intro x hx hx1
    rw [List.mem_singleton] at hx1
    exact hk (hx1 ▸ hx)

theorem nodup_keys_scoreRankings (n : Nat) (rs : List Int) :
    ∀ (i : Nat) (m : ScoreMap), (ScoreMap.keys m).Nodup →
      (ScoreMap.keys (scoreRankings n i m rs)).Nodup := by
  induction rs with
  | nil => intro i m h; simpa [scoreRankings] using h
  | cons b rest ih =>
    intro i m h
    rw [scoreRankings]
    apply ih
    by_cases hc : (0 : Int) < (n : Int) - 1 - (i : Int)
    · rw [if_pos hc]; exact nodup_keys_addTo m b _ h
    · rw [if_neg hc]; exact h

theorem nodup_keys_seedScores (n : Nat) : (ScoreMap.keys (seedScores n)).Nodup := by
  have hk : ScoreMap.keys (seedScores n)
      = (List.range n).map (fun (j : Nat) => (j : Int) + 1) := by
    simp [ScoreMap.keys, seedScores]
  rw [hk]
  exact (List.nodup_range n).map (fun a b hab => by omega)

theorem nodup_keys_tallyScores (n : Nat) (votes : List Vote) :
    (ScoreMap.keys (tallyScores n votes)).Nodup := by
  unfold tallyScores
  have H : ∀ m : ScoreMap, (ScoreMap.keys m).Nodup →
      (ScoreMap.keys
        (votes.foldl (fun m v => scoreRankings n 0 m v.rankings) m)).Nodup := by
    induction votes with
    | nil => intro m hm; simpa using hm
    | cons v rest ih =>
      intro m hm
      simp only [List.foldl_cons]
      exact ih _ (nodup_keys_scoreRankings n v.rankings 0 m hm)
  exact H (seedScores n) (nodup_keys_seedScores n)

theorem get_eq_of_mem (m : ScoreMap) (k v : Int)
    (hnd : (ScoreMap.keys m).Nodup) (h : (k, v) ∈ m) :
    ScoreMap.get m k = v := by
  induction m with
  | nil => simp at h
  | cons p rest ih =>
    rcases List.mem_cons.mp h with h | h
    · rw [← h, ScoreMap.get_cons]
      simp
    · have hk : k ∈ ScoreMap.keys rest := by
        simp only [ScoreMap.keys, List.mem_map]
        exact ⟨(k, v), h, rfl⟩
      have hpk : ¬ p.1 = k := by
        intro he
        have : p.1 ∉ ScoreMap.keys rest :=
          (List.nodup_cons.mp (by simpa [ScoreMap.keys] using hnd)).1
        exact this (he ▸ hk)
      rw [ScoreMap.get_cons, if_neg hpk]
      exact ih (List.nodup_cons.mp (by simpa [ScoreMap.keys] using hnd)).2 h

theorem get_mem_of_mem_keys (m : ScoreMap) (k : Int)
    (h : k ∈ ScoreMap.keys m) : (k, ScoreMap.get m k) ∈ m := by
  induction m with
  | nil => simp [ScoreMap.keys] at h
  | cons p rest ih =>
    rw [ScoreMap.get_cons]
    by_cases hpk : p.1 = k
    · rw [if_pos hpk, ← hpk]
      simp
    · rw [if_neg hpk]
      have hk : k ∈ ScoreMap.keys rest := by
        simp only [ScoreMap.keys, List.map_cons, List.mem_cons] at h
        rcases h with h | h
        · exact absurd h.symm hpk
        · exact h
      exact List.mem_cons_of_mem p (ih hk)

theorem foldl_max_le (m : ScoreMap) : ∀ acc : Int,
    acc ≤ m.foldl (fun mx p => if p.2 > mx then p.2 else mx) acc ∧
      ∀ p ∈ m, p.2 ≤ m.foldl (fun mx p => if p.2 > mx then p.2 else mx) acc := by
  induction m with
  | nil => intro acc; exact ⟨le_refl _, by simp⟩
  | cons q rest ih =>
    intro acc
    simp only [List.foldl_cons]
    obtain ⟨ha, hb⟩ := ih (if q.2 > acc then q.2 else acc)
    have h1 : acc ≤ (if q.2 > acc then q.2 else acc) := by split <;> omega
    have h2 : q.2 ≤ (if q.2 > acc then q.2 else acc) := by split <;> omega
    refine ⟨le_trans h1 ha, ?_⟩
    intro p hp
    rcases List.mem_cons.mp hp with rfl | hp
    · exact le_trans h2 ha
    · exact hb p hp

theorem foldl_max_cases (m : ScoreMap) : ∀ acc : Int,
    m.foldl (fun mx p => if p.2 > mx then p.2 else mx) acc = acc ∨
      ∃ p ∈ m, m.foldl (fun mx p => if p.2 > mx then p.2 else mx) acc = p.2 := by
  induction m with
  | nil => intro acc; exact Or.inl rfl
  | cons q rest ih =>
    intro acc
    simp only [List.foldl_cons]
    rcases ih (if q.2 > acc then q.2 else acc) with h | ⟨p, hp, he⟩
    · rw [h]
      by_cases hc : q.2 > acc
      · exact Or.inr ⟨q, by simp, by rw [if_pos hc]⟩
      · exact Or.inl (by rw [if_neg hc])
    · exact Or.inr ⟨p, List.mem_cons_of_mem q hp, he⟩

theorem tallyMaxScore_attained (m : ScoreMap) (hne : m ≠ [])
    (hvals : ∀ p ∈ m, 0 ≤ p.2) :
    ∃ p ∈ m, p.2 = tallyMaxScore m := by
  rcases foldl_max_cases m 0 with h | ⟨p, hp, he⟩
  · match m, hne with
    | q :: rest, _ =>
      refine ⟨q, by simp, ?_⟩
      have hle := (foldl_max_le (q :: rest) 0).2 q (by simp)
      have hge := hvals q (by simp)
      unfold tallyMaxScore
      omega
  · exact ⟨p, hp, he.symm⟩

theorem tallyMaxScore_ge (m : ScoreMap) (p : Int × Int) (hp : p ∈ m) :
    p.2 ≤ tallyMaxScore m :=
  (foldl_max_le m 0).2 p hp

theorem attainsMax_iff (m : ScoreMap) (hnd : (ScoreMap.keys m).Nodup)
    (hne : m ≠ []) (hvals : ∀ p ∈ m, 0 ≤ p.2) (x : Int) :
    attainsMax m x ↔ x ∈ ScoreMap.keys m ∧ ScoreMap.get m x = tallyMaxScore m := by
  obtain ⟨q, hq, hqmax⟩ := tallyMaxScore_attained m hne hvals
  have hqkeys : q.1 ∈ ScoreMap.keys m := by
    simp only [ScoreMap.keys, List.mem_map]
    exact ⟨q, hq, rfl⟩
  have hqget : ScoreMap.get m q.1 = tallyMaxScore m := by
    rw [get_eq_of_mem m q.1 q.2 hnd (by simpa using hq)]
    exact hqmax
  constructor
  · rintro ⟨hxk, hxmax⟩
    refine ⟨hxk, le_antisymm ?_ ?_⟩
    · exact hqget ▸ tallyMaxScore_ge m (x, ScoreMap.get m x) (get_mem_of_mem_keys m x hxk)
    · rw [← hqget]
      exact hxmax q.1 hqkeys
  · rintro ⟨hxk, hxget⟩
    refine ⟨hxk, ?_⟩
    intro b hb
    rw [hxget]
    exact tallyMaxScore_ge m (b, ScoreMap.get m b) (get_mem_of_mem_keys m b hb)

theorem mem_tallyWinners (n : Nat) (votes : List Vote) (x : Int) :
    x ∈ tallyWinners n votes ↔
      x ∈ ScoreMap.keys (tallyScores n votes) ∧
        ScoreMap.get (tallyScores n votes) x
          = tallyMaxScore (tallyScores n votes) := by
  have hnd := nodup_keys_tallyScores n votes
  unfold tallyWinners
  rw [List.mem_insertionSort]
  simp only [List.mem_map, List.mem_filter, beq_iff_eq]
  constructor
  · rintro ⟨p, ⟨hpm, hpq⟩, rfl⟩
    refine ⟨by simp only [ScoreMap.keys, List.mem_map]; exact ⟨p, hpm, rfl⟩, ?_⟩
    rw [get_eq_of_mem _ p.1 p.2 hnd (by simpa using hpm)]
    exact hpq
  · rintro ⟨hxk, hxg⟩
    exact ⟨(x, ScoreMap.get (tallyScores n votes) x),
      ⟨get_mem_of_mem_keys _ x hxk, hxg⟩, rfl⟩

theorem nodup_tallyWinners (n : Nat) (votes : List Vote) :
    (tallyWinners n votes).Nodup := by
  have hnd := nodup_keys_tallyScores n votes
  unfold tallyWinners
  rw [List.Perm.nodup_iff (List.perm_insertionSort _ _)]
  refine List.Nodup.sublist ?_ hnd
  exact List.Sublist.map _ (List.filter_sublist _)

theorem sorted_tallyWinners (n : Nat) (votes : List Vote) :
    (tallyWinners n votes).Sorted (fun a b => a ≤ b) :=
  List.sorted_insertionSort _ _

/-- C2: after folding all votes, if exactly one agent ID attains the
maximum score then `winnerID` is that ID, `isTie` is false and
`tiedAgents` is empty; if two or more agent IDs attain the maximum then
`winnerID` is unset, `isTie` is true, and `tiedAgents` is exactly the
set of maximum-scoring agent IDs in ascending order — it is sorted,
duplicate-free, and its members are exactly the attainers, which pins
the list uniquely. Attainment is the claim-side `attainsMax` (present
in Scores and not outscored by any other key). -/
theorem tally_winner_tie (n : Nat) (votes : List Vote) (hn : 1 ≤ n) :
    (∀ a : Int,
      attainsMax (tallyScores n votes) a →
      (∀ b ∈ ScoreMap.keys (tallyScores n votes),
        attainsMax (tallyScores n votes) b → b = a) →
      (Tally n votes).winnerID = some a ∧ (Tally n votes).isTie = false ∧
        (Tally n votes).tiedAgents = []) ∧
    (∀ a b : Int, a ≠ b →
      attainsMax (tallyScores n votes) a →
      attainsMax (tallyScores n votes) b →
      (Tally n votes).winnerID = none ∧ (Tally n votes).isTie = true ∧
        (Tally n votes).tiedAgents.Sorted (fun u v => u ≤ v) ∧
        (Tally n votes).tiedAgents.Nodup ∧
        ∀ x : Int, x ∈ (Tally n votes).tiedAgents ↔
          attainsMax (tallyScores n votes) x) := by
  have hnd := nodup_keys_tallyScores n votes
  have hvals := tallyScores_values_nonneg n votes
  have h1k : (1 : Int) ∈ ScoreMap.keys (tallyScores n votes) :=
    mem_keys_tallyScores n 1 votes
      ((mem_keys_seedScores n 1).mpr ⟨le_refl 1, by exact_mod_cast hn⟩)
  have hne : tallyScores n votes ≠ [] := by
    intro he
    rw [he] at h1k
    simp [ScoreMap.keys] at h1k
  have hiff : ∀ x : Int,
      x ∈ tallyWinners n votes ↔ attainsMax (tallyScores n votes) x := by
    intro x
    rw [mem_tallyWinners, attainsMax_iff _ hnd hne hvals]
  constructor
  · intro a ha hu
    have haW : a ∈ tallyWinners n votes := (hiff a).mpr ha
    have hall : ∀ x ∈ tallyWinners n votes, x = a := by
      intro x hx
      have hax := (hiff x).mp hx
      exact hu x hax.1 hax
    have hW : tallyWinners n votes = [a] := by
      match hWe : tallyWinners n votes with
      | [] => rw [hWe] at haW; simp at haW
      | w :: ws =>
        have hwa : w = a := hall w (by rw [hWe]; simp)
        have hwsnil : ws = [] := by
          rw [List.eq_nil_iff_forall_not_mem]
          intro x hx
          have hxa : x = a := hall x (by rw [hWe]; simp [hx])
          have hndW := nodup_tallyWinners n votes
          rw [hWe, List.nodup_cons] at hndW
          exact hndW.1 (hwa ▸ hxa ▸ hx)
        rw [hwa, hwsnil]
    have hT : Tally n votes = ⟨tallyScores n votes, some a, false, []⟩ := by
      unfold Tally
      rw [hW]
    rw [hT]
    exact ⟨rfl, rfl, rfl⟩
  · intro a b hab ha hb
    have haW : a ∈ tallyWinners n votes := (hiff a).mpr ha
    have hbW : b ∈ tallyWinners n votes := (hiff b).mpr hb
    match hWe : tallyWinners n votes with
    | [] => rw [hWe] at haW; simp at haW
    | [w] =>
      rw [hWe] at haW hbW
      simp only [List.mem_singleton] at haW hbW
      exact absurd (haW.trans hbW.symm) hab
    | w :: w2 :: ws2 =>
      have hT : Tally n votes
          = ⟨tallyScores n votes, none, true, w :: w2 :: ws2⟩ := by
        unfold Tally
        rw [hWe]
      rw [hT]
      refine ⟨rfl, rfl, ?_, ?_, ?_⟩
      · have := sorted_tallyWinners n votes
        rw [hWe] at this
        exact this
      · have := nodup_tallyWinners n votes
        rw [hWe] at this
        exact this
      · intro x
        have := hiff x
        rw [hWe] at this
        exact this

/-- Witness for C2 at 3 agents with the single vote `2 → [1]`: agent 1
scores 2, agents 2 and 3 score 0, so agent 1 is the sole winner. -/
theorem tally_winner_tie_witness :
    (Tally 3 [⟨2, [1], "w"⟩]).winnerID = some 1 ∧
      (Tally 3 [⟨2, [1], "w"⟩]).isTie = false ∧
      (Tally 3 [⟨2, [1], "w"⟩]).tiedAgents = [] :=
  (tally_winner_tie 3 [⟨2, [1], "w"⟩] (by decide)).1 1 (by decide) (by decide)

theorem validateVote_ok_inv (id total : Int) (r : VoteResp) (v : Vote)
    (h : validateVote id total r = .ok v) :
    v.voterID = id ∧ v.rankings = r.rankings ∧ id ∉ r.rankings ∧
      ∀ x ∈ r.rankings, 1 ≤ x ∧ x ≤ total := by
  unfold validateVote at h
  cases hf1 : r.rankings.find? (fun x => x == id) with
  | some y => rw [hf1] at h; exact absurd h (by simp)
  | none =>
    rw [hf1] at h
    cases hf2 : r.rankings.find? (fun x => decide (x < 1) || decide (total < x)) with
    | some y => rw [hf2] at h; exact absurd h (by simp)
    | none =>
      rw [hf2] at h
      have hv : v = ⟨id, r.rankings, r.reasoning⟩ := by
        cases h; rfl
      have hself := List.find?_eq_none.mp hf1
      have hrange := List.find?_eq_none.mp hf2
      refine ⟨by rw [hv], by rw [hv], ?_, ?_⟩
      · intro hmem
        exact hself id hmem (by simp)
      · intro x hx
        have := hrange x hx
        simp only [Bool.or_eq_true, decide_eq_true_eq, not_or] at this
        omega

theorem agentVoteAttempt_ok_inv (id total : Int)
    (decode : List Char → Option VoteResp) (gw : Except String (List Char))
    (v : Vote) (h : agentVoteAttempt id total decode gw = .ok v) :
    v.voterID = id ∧ id ∉ v.rankings ∧ ∀ x ∈ v.rankings, 1 ≤ x ∧ x ≤ total := by
  cases gw with
  | error e => exact absurd h (by simp [agentVoteAttempt])
  | ok resp =>
    have h' : parseVote id total decode resp = .ok v := h
    simp only [parseVote] at h'
    by_cases he : (extractJSON resp).isEmpty
    · rw [if_pos he] at h'
      exact absurd h' (by simp)
    · rw [if_neg he] at h'
      cases hd : decode (extractJSON resp) with
      | none => rw [hd] at h'; exact absurd h' (by simp)
      | some r =>
        rw [hd] at h'
        obtain ⟨h1, h2, h3, h4⟩ := validateVote_ok_inv id total r v h'
        exact ⟨h1, by rw [h2]; exact h3, by rw [h2]; exact h4⟩

theorem agentFinalVote_inv (id total : Int)
    (decode : List Char → Option VoteResp)
    (gw1 gw2 : Except String (List Char)) :
    (agentFinalVote id total decode gw1 gw2).voterID = id ∧
      id ∉ (agentFinalVote id total decode gw1 gw2).rankings ∧
      ∀ x ∈ (agentFinalVote id total decode gw1 gw2).rankings,
        1 ≤ x ∧ x ≤ total := by
  unfold agentFinalVote
  cases h1 : agentVoteAttempt id total decode gw1 with
  | ok v => exact agentVoteAttempt_ok_inv id total decode gw1 v h1
  | error e1 =>
    cases h2 : agentVoteAttempt id total decode gw2 with
    | ok v => exact agentVoteAttempt_ok_inv id total decode gw2 v h2
    | error e2 => exact ⟨rfl, by simp, by simp⟩

/-- C3 (amended): every Vote the Vote phase records has its voter ID
absent from its rankings and every ranking entry a valid agent ID in
`[1, n]`; a response violating these checks degrades (after the retry)
to the empty-ranking fallback Vote rather than being recorded.
Uniqueness of ranking entries, however, is not validated anywhere and
can be violated by a recorded vote (see the counterexample). -/
theorem vote_phase_invariant (n : Nat) (decode : List Char → Option VoteResp)
    (gw1 gw2 : Int → Except String (List Char)) (vs : List Vote)
    (h : votePhase n decode gw1 gw2 = .ok vs) :
    ∀ v ∈ vs, v.voterID ∉ v.rankings ∧
      ∀ x ∈ v.rankings, 1 ≤ x ∧ x ≤ (n : Int) := by
  intro v hv
  have hvs : vs = List.insertionSort (fun u v => u.voterID ≤ v.voterID)
      ((List.range n).map (fun (j : Nat) =>
        agentFinalVote ((j : Int) + 1) (n : Int) decode
          (gw1 ((j : Int) + 1)) (gw2 ((j : Int) + 1)))) := by
    unfold votePhase at h
    cases h; rfl
  rw [hvs, List.mem_insertionSort, List.mem_map] at hv
  obtain ⟨j, _, hj⟩ := hv
  obtain ⟨h1, h2, h3⟩ := agentFinalVote_inv ((j : Int) + 1) (n : Int) decode
    (gw1 ((j : Int) + 1)) (gw2 ((j : Int) + 1))
  rw [← hj]
  exact ⟨by rw [h1]; exact h2, h3⟩

/-- C3 counterexample: validation never checks ranking uniqueness, so
with 3 agents a response decoding to rankings `[2, 2]` passes both
checks and the Vote phase records a vote whose rankings are not
unique, refuting the uniqueness clause of the invariant. -/
theorem vote_phase_invariant_counterexample :
    votePhase 3 (fun _ => some ⟨[2, 2], "dup"⟩)
        (fun i => if i = 1 then .ok [lbrace, Char.ofNat 114, rbrace]
          else .error "down")
        (fun _ => .error "down")
      = .ok [⟨1, [2, 2], "dup"⟩, ⟨2, [], "Vote failed to parse"⟩,
          ⟨3, [], "Vote failed to parse"⟩] ∧
      ¬ ([2, 2] : List Int).Nodup := by
  decide

/-- Witness for C3 with every transport call failing: agent 2's
recorded fallback vote satisfies the invariant. -/
theorem vote_phase_invariant_witness :
    (⟨2, [], "Vote failed to parse"⟩ : Vote).voterID
        ∉ (⟨2, [], "Vote failed to parse"⟩ : Vote).rankings ∧
      ∀ x ∈ (⟨2, [], "Vote failed to parse"⟩ : Vote).rankings,
        1 ≤ x ∧ x ≤ ((3 : Nat) : Int) :=
  vote_phase_invariant 3 (fun _ => none) (fun _ => .error "x")
    (fun _ => .error "x")
    [⟨1, [], "Vote failed to parse"⟩, ⟨2, [], "Vote failed to parse"⟩,
      ⟨3, [], "Vote failed to parse"⟩]
    (by decide) ⟨2, [], "Vote failed to parse"⟩ (by decide)

theorem agentFinalVote_of_fail (id total : Int)
    (decode : List Char → Option VoteResp)
    (gw1 gw2 : Except String (List Char))
    (h1 : isOkE (agentVoteAttempt id total decode gw1) = false)
    (h2 : isOkE (agentVoteAttempt id total decode gw2) = false) :
    agentFinalVote id total decode gw1 gw2
      = ⟨id, [], "Vote failed to parse"⟩ := by
  unfold agentFinalVote
  cases ha1 : agentVoteAttempt id total decode gw1 with
  | ok v => rw [ha1] at h1; exact absurd h1 (by simp [isOkE])
  | error e1 =>
    cases ha2 : agentVoteAttempt id total decode gw2 with
    | ok v => rw [ha2] at h2; exact absurd h2 (by simp [isOkE])
    | error e2 => rfl

/-- C4 (amended): a Participant whose vote fails is retried exactly
once with an identical request (the model consults the transport twice
with the same per-agent arguments); if the retry also fails, that
agent's Vote is recorded with an empty rankings list and the fixed
reasoning string "Vote failed to parse" (capital V — the claim's
"vote failed to parse" does not match the code, see the
counterexample), and the Vote phase always completes successfully with
one vote per agent, for every combination of per-agent failures. -/
theorem vote_retry_fallback (n : Nat) (decode : List Char → Option VoteResp)
    (gw1 gw2 : Int → Except String (List Char)) (j : Int)
    (hj1 : 1 ≤ j) (hj2 : j ≤ (n : Int))
    (hf1 : isOkE (agentVoteAttempt j (n : Int) decode (gw1 j)) = false)
    (hf2 : isOkE (agentVoteAttempt j (n : Int) decode (gw2 j)) = false) :
    isOkE (votePhase n decode gw1 gw2) = true ∧
      ∀ vs : List Vote, votePhase n decode gw1 gw2 = .ok vs →
        (⟨j, [], "Vote failed to parse"⟩ : Vote) ∈ vs ∧ vs.length = n := by
  refine ⟨rfl, ?_⟩
  intro vs hvs
  have hvseq : vs = List.insertionSort (fun u v => u.voterID ≤ v.voterID)
      ((List.range n).map (fun (k : Nat) =>
        agentFinalVote ((k : Int) + 1) (n : Int) decode
          (gw1 ((k : Int) + 1)) (gw2 ((k : Int) + 1)))) := by
    unfold votePhase at hvs
    cases hvs; rfl
  rw [hvseq]
  constructor
  · rw [List.mem_insertionSort, List.mem_map]
    refine ⟨(j - 1).toNat, by rw [List.mem_range]; omega, ?_⟩
    have hcast : ((((j - 1).toNat : Nat)) : Int) + 1 = j := by omega
    rw [hcast]
    exact agentFinalVote_of_fail j (n : Int) decode (gw1 j) (gw2 j) hf1 hf2
  · rw [List.length_insertionSort, List.length_map, List.length_range]

/-- C4 counterexample: when both attempts fail (here: responses with
no braces, so extraction fails twice per agent), the recorded fallback
reasoning is "Vote failed to parse", not the claimed lowercase
"vote failed to parse". -/
theorem vote_retry_fallback_counterexample :
    votePhase 3 (fun _ => none) (fun _ => .ok "no braces here".toList)
        (fun _ => .ok "no braces here".toList)
      = .ok [⟨1, [], "Vote failed to parse"⟩, ⟨2, [], "Vote failed to parse"⟩,
          ⟨3, [], "Vote failed to parse"⟩] ∧
      "Vote failed to parse" ≠ "vote failed to parse" := by
  decide

/-- Witness for C4: agent 2 of 3 with both transport calls failing;
its fallback vote is among the three recorded votes. -/
theorem vote_retry_fallback_witness :
    (⟨2, [], "Vote failed to parse"⟩ : Vote) ∈
        [(⟨1, [], "Vote failed to parse"⟩ : Vote),
          ⟨2, [], "Vote failed to parse"⟩, ⟨3, [], "Vote failed to parse"⟩] ∧
      ([(⟨1, [], "Vote failed to parse"⟩ : Vote),
          ⟨2, [], "Vote failed to parse"⟩,
          ⟨3, [], "Vote failed to parse"⟩] : List Vote).length = 3 :=
  (vote_retry_fallback 3 (fun _ => none) (fun _ => .error "x")
      (fun _ => .error "x") 2 (by decide) (by decide) (by decide)
      (by decide)).2
    [⟨1, [], "Vote failed to parse"⟩, ⟨2, [], "Vote failed to parse"⟩,
      ⟨3, [], "Vote failed to parse"⟩] (by decide)

/-- C9: when a decoded ranking list contains both a self-reference and
an out-of-range agent ID, `parseVote` reports the self-vote violation:
the self-vote scan over all rankings runs before the range scan
begins. -/
theorem parseVote_validation_order (id total : Int) (r : VoteResp)
    (hself : id ∈ r.rankings)
    (hrange : ∃ x ∈ r.rankings, x < 1 ∨ total < x) :
    validateVote id total r = .error (.selfVote id) := by
  unfold validateVote
  have hsome : (r.rankings.find? (fun x => x == id)).isSome :=
    List.find?_isSome.mpr ⟨id, hself, by simp⟩
  cases hf : r.rankings.find? (fun x => x == id) with
  | none => rw [hf] at hsome; exact absurd hsome (by simp)
  | some y => rfl

/-- Witness for C9: voter 1 of 3, decoded rankings `[99, 1]` contain
both an out-of-range ID and the voter itself; the self-vote error is
reported. -/
theorem parseVote_validation_order_witness :
    validateVote 1 3 ⟨[99, 1], "b"⟩ = .error (.selfVote 1) :=
  parseVote_validation_order 1 3 ⟨[99, 1], "b"⟩ (by decide) (by decide)

/-- C5: `SendMessage` retries a rate-limited request up to 3 more
times with delays of 1, 2 and 4 time units (doubling each attempt); a
non-rate-limit failure is returned immediately with no retry and no
wait; exhausting all retries on rate limits returns a
"max retries exceeded" error wrapping the last underlying cause. -/
theorem sendMessage_retry_policy :
    (∀ (doRequest : Nat → Except GoError MessageResponse) (e : GoError),
      doRequest 0 = .error e → isRateLimitError e = false →
      SendMessage doRequest = (.error e, [])) ∧
    (∀ (doRequest : Nat → Except GoError MessageResponse)
        (e0 e1 e2 e3 : GoError),
      doRequest 0 = .error e0 → doRequest 1 = .error e1 →
      doRequest 2 = .error e2 → doRequest 3 = .error e3 →
      isRateLimitError e0 = true → isRateLimitError e1 = true →
      isRateLimitError e2 = true → isRateLimitError e3 = true →
      SendMessage doRequest = (.error (.maxRetriesExceeded e3), [1, 2, 4])) ∧
    (∀ (doRequest : Nat → Except GoError MessageResponse) (e0 : GoError)
        (resp : MessageResponse),
      doRequest 0 = .error e0 → isRateLimitError e0 = true →
      doRequest 1 = .ok resp →
      SendMessage doRequest = (.ok (extractText resp), [1])) := by
  refine ⟨?_, ?_, ?_⟩
  · intro doRequest e h0 hrl
    simp [SendMessage, sendMessageFrom, maxRetries, h0, hrl]
  · intro doRequest e0 e1 e2 e3 h0 h1 h2 h3 r0 r1 r2 r3
    simp [SendMessage, sendMessageFrom, maxRetries, h0, h1, h2, h3,
      r0, r1, r2, r3]
  · intro doRequest e0 resp h0 r0 h1
    simp [SendMessage, sendMessageFrom, maxRetries, h0, h1, r0]

/-- Witness for C5: a transport that always answers 429 exhausts the
retries with delays 1, 2, 4 and wraps the last cause; one that fails
with a non-API error returns it immediately with no wait. -/
theorem sendMessage_retry_policy_witness :
    SendMessage (fun _ => .error (.apiError 429 "rate_limit_error" "slow"))
        = (.error (.maxRetriesExceeded (.apiError 429 "rate_limit_error" "slow")),
          [1, 2, 4]) ∧
      SendMessage (fun _ => .error (.wrapped "request failed"))
        = (.error (.wrapped "request failed"), []) :=
  ⟨sendMessage_retry_policy.2.1 _ _ _ _ _ rfl rfl rfl rfl
      (by decide) (by decide) (by decide) (by decide),
    sendMessage_retry_policy.1 _ _ rfl (by decide)⟩

/-- C10: on a successful backend response `SendMessage` returns the
text of the first text-typed content segment with no error; a response
with no text-typed segment at all yields the empty string, still with
no error, so a caller can receive empty text from a successful call. -/
theorem sendMessage_first_text :
    (∀ (doRequest : Nat → Except GoError MessageResponse)
        (resp : MessageResponse),
      doRequest 0 = .ok resp →
      SendMessage doRequest = (.ok (extractText resp), [])) ∧
    (∀ resp : MessageResponse,
      (∀ c ∈ resp.content, ¬ c.segType = "text") → extractText resp = "") ∧
    (∀ (resp : MessageResponse) (pre : List ContentSegment)
        (seg : ContentSegment) (post : List ContentSegment),
      resp.content = pre ++ seg :: post →
      (∀ c ∈ pre, ¬ c.segType = "text") → seg.segType = "text" →
      extractText resp = seg.text) := by
  refine ⟨?_, ?_, ?_⟩
  · intro doRequest resp h0
    simp [SendMessage, sendMessageFrom, maxRetries, h0]
  · intro resp h
    unfold extractText
    rw [List.find?_eq_none.mpr (fun c hc => by simp [h c hc])]
  · intro resp pre seg post hc hpre hseg
    unfold extractText
    rw [hc]
    have hfind : ∀ pre' : List ContentSegment,
        (∀ c ∈ pre', ¬ c.segType = "text") →
        (pre' ++ seg :: post).find? (fun c => c.segType == "text")
          = some seg := by
      intro pre'
      induction pre' with
      | nil => intro _; simp [List.find?_cons, hseg]
      | cons c cs ih =>
        intro hpre'
        have hb : (c.segType == "text") = false :=
          beq_eq_false_iff_ne.mpr (hpre' c (by simp))
        rw [List.cons_append, List.find?_cons, hb]
        exact ih (fun d hd => hpre' d (by simp [hd]))
    rw [hfind pre hpre]

/-- Witness for C10: a response whose first text segment follows a
thinking segment yields that text; a response with only a tool-use
segment yields the empty string, both as successful calls. -/
theorem sendMessage_first_text_witness :
    SendMessage (fun _ => .ok ⟨"id1", "message", "assistant",
        [⟨"thinking", "t"⟩, ⟨"text", "b"⟩, ⟨"text", "c"⟩], "end_turn", 1, 2⟩)
      = (.ok "b", []) ∧
    SendMessage (fun _ => .ok ⟨"id2", "message", "assistant",
        [⟨"tool_use", "z"⟩], "end_turn", 1, 2⟩)
      = (.ok "", []) := by
  constructor
  · have he : extractText ⟨"id1", "message", "assistant",
        [⟨"thinking", "t"⟩, ⟨"text", "b"⟩, ⟨"text", "c"⟩], "end_turn", 1, 2⟩
        = "b" :=
      sendMessage_first_text.2.2 _ [⟨"thinking", "t"⟩] ⟨"text", "b"⟩
        [⟨"text", "c"⟩] rfl (by decide) rfl
    have h1 := sendMessage_first_text.1
      (fun _ => .ok ⟨"id1", "message", "assistant",
        [⟨"thinking", "t"⟩, ⟨"text", "b"⟩, ⟨"text", "c"⟩], "end_turn", 1, 2⟩)
      _ rfl
    rw [he] at h1
    exact h1
  · have he : extractText ⟨"id2", "message", "assistant",
        [⟨"tool_use", "z"⟩], "end_turn", 1, 2⟩ = "" :=
      sendMessage_first_text.2.1 _ (by decide)
    have h1 := sendMessage_first_text.1
      (fun _ => .ok ⟨"id2", "message", "assistant",
        [⟨"tool_use", "z"⟩], "end_turn", 1, 2⟩) _ rfl
    rw [he] at h1
    exact h1

theorem bq3_isPrefixOf_head (c : Char) (l : List Char)
    (h : bq3.isPrefixOf (c :: l) = true) : c = backtick := by
  simp only [bq3, List.isPrefixOf, Bool.and_eq_true, beq_iff_eq] at h
  exact h.1.symm

theorem codeBlockScan_eq_none (s : List Char) (h : backtick ∉ s) :
    codeBlockScan s = none := by
  induction s with
  | nil => rfl
  | cons c rest ih =>
    rw [codeBlockScan]
    have hpf : bq3.isPrefixOf (c :: rest) = false := by
      cases hb : bq3.isPrefixOf (c :: rest) with
      | false => rfl
      | true =>
        exfalso
        apply h
        rw [← bq3_isPrefixOf_head c rest hb]
        exact List.mem_cons_self c rest
    rw [hpf]
    simp only [Bool.false_eq_true, if_false]
    exact ih (fun hm => h (List.mem_cons_of_mem c hm))

theorem strIndexOf_eq_none (c : Char) (s : List Char) (h : c ∉ s) :
    strIndexOf c s = none := by
  induction s with
  | nil => rfl
  | cons d rest ih =>
    rw [strIndexOf]
    have hd : (d == c) = false := by
      refine beq_eq_false_iff_ne.mpr fun he => ?_
      exact h (he ▸ List.mem_cons_self d rest)
    rw [hd]
    simp only [Bool.false_eq_true, if_false]
    rw [ih (fun hm => h (List.mem_cons_of_mem d hm))]
    rfl

theorem strIndexOf_cons_self (c : Char) (l : List Char) :
    strIndexOf c (c :: l) = some 0 := by
  rw [strIndexOf]
  simp

theorem fenceInnerFrom_sublist (r inner : List Char)
    (h : fenceInnerFrom r = some inner) : inner.Sublist r := by
  unfold fenceInnerFrom at h
  simp only [] at h
  cases hf : findSub bq3 (r.dropWhile isWS) with
  | none => rw [hf] at h; exact absurd h (by simp)
  | some p =>
    rw [hf] at h
    simp only [Option.some_inj] at h
    have hbase : ((r.dropWhile isWS).take p).Sublist r :=
      (List.take_sublist _ _).trans (List.dropWhile_sublist _)
    by_cases hl : (((r.dropWhile isWS).take p).getLast? == some newlineChar) = true
    · rw [if_pos hl] at h
      rw [← h]
      exact (List.dropLast_sublist _).trans hbase
    · rw [if_neg hl] at h
      rw [← h]
      exact hbase

theorem codeBlockScan_sublist (s : List Char) :
    ∀ inner, codeBlockScan s = some inner → inner.Sublist s := by
  induction s with
  | nil => intro inner h; exact absurd h (by simp [codeBlockScan])
  | cons c rest ih =>
    intro inner h
    rw [codeBlockScan] at h
    simp only [] at h
    by_cases hpf : bq3.isPrefixOf (c :: rest) = true
    · rw [if_pos hpf] at h
      cases hf : fenceInnerFrom
          (if jsonTag.isPrefixOf (rest.drop 2)
            then (rest.drop 2).drop 4 else rest.drop 2) with
      | some i =>
        rw [hf] at h
        simp only [Option.some_inj] at h
        have hsub := fenceInnerFrom_sublist _ _ hf
        have hbody : (if jsonTag.isPrefixOf (rest.drop 2)
            then (rest.drop 2).drop 4 else rest.drop 2).Sublist rest := by
          by_cases hj : jsonTag.isPrefixOf (rest.drop 2) = true
          · rw [if_pos hj]
            exact (List.drop_sublist _ _).trans (List.drop_sublist _ _)
          · rw [if_neg hj]
            exact List.drop_sublist _ _
        exact h ▸ (hsub.trans hbody).trans (List.sublist_cons_self c rest)
      | none =>
        rw [hf] at h
        exact (ih inner h).trans (List.sublist_cons_self c rest)
    · rw [if_neg hpf] at h
      exact (ih inner h).trans (List.sublist_cons_self c rest)

theorem extractJSON_no_brace (s : List Char) (h1 : lbrace ∉ s)
    (h2 : rbrace ∉ s) : extractJSON s = [] := by
  cases hscan : codeBlockScan s with
  | none =>
    simp only [extractJSON, hscan]
    rw [strIndexOf_eq_none lbrace s h1]
  | some inner =>
    have hsub := (codeBlockScan_sublist s inner hscan).subset
    simp only [extractJSON, hscan]
    rw [strIndexOf_eq_none lbrace inner (fun hm => h1 (hsub hm))]

theorem findSub_bq3_append (x : List Char) (hx : backtick ∉ x) :
    findSub bq3 (x ++ bq3) = some x.length := by
  induction x with
  | nil => decide
  | cons c xs ih =>
    rw [List.cons_append, findSub]
    have hpf : bq3.isPrefixOf (c :: (xs ++ bq3)) = false := by
      cases hb : bq3.isPrefixOf (c :: (xs ++ bq3)) with
      | false => rfl
      | true =>
        exfalso
        apply hx
        rw [← bq3_isPrefixOf_head _ _ hb]
        exact List.mem_cons_self c xs
    rw [hpf]
    simp only [Bool.false_eq_true, if_false]
    rw [ih (fun hm => hx (List.mem_cons_of_mem c hm))]
    rfl

theorem cleanPayload_shape (t : List Char) (h : cleanPayload t) :
    ∃ mid : List Char, t = lbrace :: (mid ++ [rbrace]) := by
  obtain ⟨⟨mid, hmid⟩, _⟩ := h
  exact ⟨mid, by rw [hmid]; simp⟩

theorem strLastIndexOf_clean (t : List Char) (h : cleanPayload t) :
    strLastIndexOf rbrace t = some (t.length - 1) := by
  obtain ⟨mid, hmid⟩ := cleanPayload_shape t h
  unfold strLastIndexOf
  have hrev : t.reverse = rbrace :: (mid.reverse ++ [lbrace]) := by
    rw [hmid]
    simp
  rw [hrev, strIndexOf_cons_self]
  simp

theorem extractJSON_clean (t : List Char) (h : cleanPayload t) :
    extractJSON t = t := by
  obtain ⟨mid, hmid⟩ := cleanPayload_shape t h
  have hnone := codeBlockScan_eq_none t h.2
  simp only [extractJSON, hnone]
  have h1 : strIndexOf lbrace t = some 0 := by
    rw [hmid]
    exact strIndexOf_cons_self _ _
  rw [h1, strLastIndexOf_clean t h]
  have hlen : 2 ≤ t.length := by
    rw [hmid]
    simp
  have hne : ¬ (t.length - 1 ≤ 0) := by omega
  show (if t.length - 1 ≤ 0 then []
    else List.take (t.length - 1 + 1 - 0) (List.drop 0 t)) = t
  rw [if_neg hne, List.drop_zero]
  have hl2 : t.length - 1 + 1 - 0 = t.length := by omega
  rw [hl2, List.take_length]

theorem dropWhile_isWS_clean (t : List Char) (h : cleanPayload t)
    (z : List Char) :
    (t ++ z).dropWhile isWS = t ++ z := by
  obtain ⟨mid, hmid⟩ := cleanPayload_shape t h
  rw [hmid, List.cons_append, List.dropWhile_cons]
  have : isWS lbrace = false := by decide
  rw [this]
  simp

theorem fenceInnerFrom_wrap (t : List Char) (h : cleanPayload t) :
    fenceInnerFrom (newlineChar :: (t ++ newlineChar :: bq3)) = some t := by
  unfold fenceInnerFrom
  simp only []
  have hdw : (newlineChar :: (t ++ newlineChar :: bq3)).dropWhile isWS
      = t ++ newlineChar :: bq3 := by
    rw [List.dropWhile_cons]
    have hnl : isWS newlineChar = true := by decide
    rw [hnl]
    simp only [if_true]
    exact dropWhile_isWS_clean t h _
  rw [hdw]
  have hshape : t ++ newlineChar :: bq3 = (t ++ [newlineChar]) ++ bq3 := by
    rw [List.append_assoc]
    rfl
  have hx : backtick ∉ t ++ [newlineChar] := by
    intro hm
    rcases List.mem_append.mp hm with hm1 | hm2
    · exact h.2 hm1
    · exact absurd (List.mem_singleton.mp hm2) (by decide)
  rw [hshape, findSub_bq3_append _ hx]
  show some (if (((t ++ [newlineChar] ++ bq3).take
        (t ++ [newlineChar]).length).getLast? == some newlineChar) = true
      then ((t ++ [newlineChar] ++ bq3).take (t ++ [newlineChar]).length).dropLast
      else (t ++ [newlineChar] ++ bq3).take (t ++ [newlineChar]).length)
    = some t
  rw [List.take_left, List.getLast?_concat]
  have hbeq : ((some newlineChar == some newlineChar) = true) := by decide
  rw [hbeq]
  simp only [if_true]
  rw [List.dropLast_concat]

theorem isPrefixOf_self_append (l z : List Char) :
    l.isPrefixOf (l ++ z) = true := by
  induction l with
  | nil => simp [List.isPrefixOf]
  | cons c cs ih =>
    rw [List.cons_append, List.isPrefixOf]
    simp [ih]

theorem codeBlockScan_fenced_json (t : List Char) (h : cleanPayload t) :
    codeBlockScan (bq3 ++ (jsonTag ++ (newlineChar :: (t ++ newlineChar :: bq3))))
      = some t := by
  have hexp : bq3 ++ (jsonTag ++ (newlineChar :: (t ++ newlineChar :: bq3)))
      = backtick :: (backtick :: backtick
        :: (jsonTag ++ (newlineChar :: (t ++ newlineChar :: bq3)))) := rfl
  rw [hexp, codeBlockScan]
  simp only []
  have hpf : bq3.isPrefixOf (backtick :: (backtick :: backtick
      :: (jsonTag ++ (newlineChar :: (t ++ newlineChar :: bq3))))) = true := by
    simp [bq3, List.isPrefixOf]
  rw [hpf]
  simp only [if_true]
  have hd2 : (backtick :: backtick
      :: (jsonTag ++ (newlineChar :: (t ++ newlineChar :: bq3)))).drop 2
      = jsonTag ++ (newlineChar :: (t ++ newlineChar :: bq3)) := rfl
  rw [hd2, isPrefixOf_self_append]
  simp only [if_true]
  have hd4 : (jsonTag ++ (newlineChar :: (t ++ newlineChar :: bq3))).drop 4
      = newlineChar :: (t ++ newlineChar :: bq3) := rfl
  rw [hd4, fenceInnerFrom_wrap t h]

theorem codeBlockScan_fenced_plain (t : List Char) (h : cleanPayload t) :
    codeBlockScan (bq3 ++ (newlineChar :: (t ++ newlineChar :: bq3)))
      = some t := by
  have hexp : bq3 ++ (newlineChar :: (t ++ newlineChar :: bq3))
      = backtick :: (backtick :: backtick
        :: (newlineChar :: (t ++ newlineChar :: bq3))) := rfl
  rw [hexp, codeBlockScan]
  simp only []
  have hpf : bq3.isPrefixOf (backtick :: (backtick :: backtick
      :: (newlineChar :: (t ++ newlineChar :: bq3)))) = true := by
    simp [bq3, List.isPrefixOf]
  rw [hpf]
  simp only [if_true]
  have hd2 : (backtick :: backtick
      :: (newlineChar :: (t ++ newlineChar :: bq3))).drop 2
      = newlineChar :: (t ++ newlineChar :: bq3) := rfl
  rw [hd2]
  have hjp : jsonTag.isPrefixOf (newlineChar :: (t ++ newlineChar :: bq3))
      = false := by
    rw [show jsonTag = ['j', 's', 'o', 'n'] from rfl]
    have hjc : (('j' == newlineChar)) = false := by decide
    simp [List.isPrefixOf, hjc]
  rw [hjp]
  simp only [Bool.false_eq_true, if_false]
  rw [fenceInnerFrom_wrap t h]

/-- C8: vote-response extraction is idempotent on already-clean JSON
payloads — a brace-delimited, fence-free payload (exactly what a
successful extraction returns) extracts to itself — and tolerant of one
layer of fenced-block wrapping (with or without the `json` tag) around
the payload; an input containing no brace at all yields the empty
string, which is the extraction-failure signal. -/
theorem extractJSON_clean_behavior :
    (∀ t : List Char, cleanPayload t → extractJSON t = t) ∧
    (∀ t : List Char, cleanPayload t →
      extractJSON (bq3 ++ (jsonTag ++ (newlineChar :: (t ++ newlineChar :: bq3))))
        = t) ∧
    (∀ t : List Char, cleanPayload t →
      extractJSON (bq3 ++ (newlineChar :: (t ++ newlineChar :: bq3))) = t) ∧
    (∀ s : List Char, lbrace ∉ s → rbrace ∉ s → extractJSON s = []) := by
  have hstage2 : ∀ t : List Char, cleanPayload t →
      ∀ s : List Char, codeBlockScan s = some t → extractJSON s = t := by
    intro t h s hscan
    have hclean := extractJSON_clean t h
    have hnone := codeBlockScan_eq_none t h.2
    simp only [extractJSON, hnone] at hclean
    simp only [extractJSON, hscan]
    exact hclean
  refine ⟨extractJSON_clean, ?_, ?_, extractJSON_no_brace⟩
  · intro t h
    exact hstage2 t h _ (codeBlockScan_fenced_json t h)
  · intro t h
    exact hstage2 t h _ (codeBlockScan_fenced_plain t h)

/-- Witness for C8 on the concrete payload `{a:1}`: all four
behaviours at concrete inputs. -/
theorem extractJSON_clean_behavior_witness :
    extractJSON (lbrace :: ['a', ':', '1'] ++ [rbrace])
        = lbrace :: ['a', ':', '1'] ++ [rbrace] ∧
      extractJSON (bq3 ++ (jsonTag ++ (newlineChar
          :: ((lbrace :: ['a', ':', '1'] ++ [rbrace]) ++ newlineChar :: bq3))))
        = lbrace :: ['a', ':', '1'] ++ [rbrace] ∧
      extractJSON (bq3 ++ (newlineChar
          :: ((lbrace :: ['a', ':', '1'] ++ [rbrace]) ++ newlineChar :: bq3)))
        = lbrace :: ['a', ':', '1'] ++ [rbrace] ∧
      extractJSON ("no payload here".toList) = [] :=
  ⟨extractJSON_clean_behavior.1 _ ⟨⟨['a', ':', '1'], by decide⟩, by decide⟩,
    extractJSON_clean_behavior.2.1 _ ⟨⟨['a', ':', '1'], by decide⟩, by decide⟩,
    extractJSON_clean_behavior.2.2.1 _ ⟨⟨['a', ':', '1'], by decide⟩, by decide⟩,
    extractJSON_clean_behavior.2.2.2 _ (by decide) (by decide)⟩

end Council
